import Mathlib

/-!
Shallow embedding of the two source files of jonsg-git-tools,
`src/py/cnb.py` (clone-new-branch tool) and `src/py/getconf.py`
(config query tool), together with proofs checking the specification's
claims about them.

External collaborators (the git client, the file system, the regex
engine, pathlib normalisation and the interactive input stream) are
modelled as explicit parameters; the Python string primitives used by
the source (`str.replace`, `str.strip`, `str.split`, `str.splitlines`,
`re.split` on non-word runs, substring containment) are embedded as
executable functions on character lists below, restricted to the ASCII
behaviour the tool exercises.
-/

set_option maxHeartbeats 1000000

namespace CnbTools

/-- Whitespace characters removed by Python `str.strip` (ASCII subset). -/
def isPySpace (c : Char) : Bool :=
  c == ' ' || c == '\t' || c == '\n' || c == '\r' || c == '\x0b' || c == '\x0c'

/-- Characters of a string with surrounding whitespace removed, as Python
`str.strip` does: drop a whitespace run at the front and one at the back. -/
def stripChars (l : List Char) : List Char :=
  ((l.dropWhile isPySpace).reverse.dropWhile isPySpace).reverse

/-- Python `str.strip`. -/
def pyStrip (s : String) : String := ⟨stripChars s.data⟩

/-- Python `str.replace(pat, rep)` scanning left to right, replacing every
non-overlapping occurrence and continuing after the replacement text.  The
fuel argument (one unit per consumed character) makes the recursion
structural; callers pass the length of the scanned list.  For an empty
pattern this model is the identity, which agrees with Python exactly when
the replacement is empty — the only way an empty pattern can reach the
source's calls. -/
def pyReplaceFuel (pat rep : List Char) : Nat → List Char → List Char
  | _, [] => []
  | 0, l => l
  | f + 1, c :: rest =>
    if !pat.isEmpty && pat.isPrefixOf (c :: rest) then
      rep ++ pyReplaceFuel pat rep f (rest.drop (pat.length - 1))
    else
      c :: pyReplaceFuel pat rep f rest

/-- Python `s.replace(pat, rep)`. -/
def pyReplace (pat rep s : String) : String :=
  ⟨pyReplaceFuel pat.data rep.data s.data.length s.data⟩

/-- Python substring containment `pat in hay` (case sensitive, literal). -/
def containsSub : List Char → List Char → Bool
  | [], pat => pat.isEmpty
  | c :: t, pat => pat.isPrefixOf (c :: t) || containsSub t pat

/-- ASCII word characters of the regex word class (letters, digits and the
underscore); the configuration values the tool reads are ASCII. -/
def isWordChar (c : Char) : Bool := c.isAlphanum || c == '_'

/-- Python `re.split` on runs of non-word characters, one pass over the
characters.  The second argument is `some acc` while a token (possibly
empty) is being accumulated and `none` while inside a separator run. -/
def splitWGo : List Char → Option (List Char) → List String
  | [], some acc => [⟨acc⟩]
  | [], none => [""]
  | c :: rest, some acc =>
    if isWordChar c then splitWGo rest (some (acc ++ [c]))
    else (⟨acc⟩ : String) :: splitWGo rest none
  | c :: rest, none =>
    if isWordChar c then splitWGo rest (some [c])
    else splitWGo rest none

/-- Python `re.split` of a string on runs of non-word characters. -/
def splitNonWord (s : String) : List String := splitWGo s.data (some [])

/-- Python `str.split(sep)` for a one-character separator, on character
lists; the accumulator holds the current field reversed. -/
def splitCharGo (sep : Char) : List Char → List Char → List (List Char)
  | [], acc => [acc.reverse]
  | c :: rest, acc =>
    if c == sep then acc.reverse :: splitCharGo sep rest []
    else splitCharGo sep rest (c :: acc)

/-- Python `s.split(sep)` for a one-character separator. -/
def pySplitChar (sep : Char) (s : String) : List String :=
  (splitCharGo sep s.data []).map (fun g => (⟨g⟩ : String))

/-- Python `str.splitlines` restricted to LF line boundaries, the only
boundaries occurring in the git output the tool consumes: a trailing
newline produces no extra empty line. -/
def splitlinesGo : List Char → List Char → List String
  | [], acc => if acc.isEmpty then [] else [⟨acc.reverse⟩]
  | c :: rest, acc =>
    if c == '\n' then (⟨acc.reverse⟩ : String) :: splitlinesGo rest []
    else splitlinesGo rest (c :: acc)

/-- Python `s.splitlines` (LF boundaries). -/
def pySplitlines (s : String) : List String := splitlinesGo s.data []

/-- Removal of only the FIRST occurrence of a pattern, the operation the
specification claims for the strip-prefix step. -/
def removeFirstOcc (pat : List Char) : List Char → List Char
  | [] => []
  | c :: rest =>
    if !pat.isEmpty && pat.isPrefixOf (c :: rest) then rest.drop (pat.length - 1)
    else c :: removeFirstOcc pat rest

/-- The groups between the non-overlapping left-to-right occurrences of a
pattern, fuelled like `pyReplaceFuel`; joining the groups yields the text
with every occurrence removed. -/
def splitSubFuel (pat : List Char) : Nat → List Char → List (List Char)
  | _, [] => [[]]
  | 0, l => [l]
  | f + 1, c :: rest =>
    if !pat.isEmpty && pat.isPrefixOf (c :: rest) then
      [] :: splitSubFuel pat f (rest.drop (pat.length - 1))
    else
      match splitSubFuel pat f rest with
      | [] => [[c]]
      | g :: gs => (c :: g) :: gs

/-- Split a character list on the occurrences of a pattern. -/
def splitSub (pat l : List Char) : List (List Char) := splitSubFuel pat l.length l

/-- Python `sep.join(groups)` on character lists. -/
def joinSep (sep : List Char) : List (List Char) → List Char
  | [] => []
  | [g] => g
  | g :: gs => g ++ sep ++ joinSep sep gs

/-- Python `str.find` for one character: index of its first occurrence. -/
def strFindIdx (c : Char) : List Char → Option Nat
  | [] => none
  | d :: rest => if d == c then some 0 else (strFindIdx c rest).map (· + 1)

/-- `input_char` from cnb.py: consume interactive replies until one is a
single character occurring in `opt_chr`, and return that character's index
in `opt_chr`.  Empty replies, longer replies and characters outside the
options re-prompt, i.e. consume the next reply.  `none` models an
exhausted reply stream (where the real loop would block forever). -/
def input_char (opt_chr : List Char) : List String → Option Nat
  | [] => none
  | r :: rest =>
    match r.data with
    | [c] =>
      match strFindIdx c opt_chr with
      | some i => some i
      | none => input_char opt_chr rest
    | _ => input_char opt_chr rest

/-- The optional `git`-section keys of user.cfg consumed by
`get_branch_name`, as returned by ConfigParser: `pass_branches`, the
strip-prefix value (source key `strip_` followed by `prefix`) as
`stripPat`, and `accept_re_list`.  A `none` field models an absent key. -/
structure GitCfg where
  pass_branches : Option String
  stripPat : Option String
  accept_re_list : Option String
  deriving DecidableEq

/-- The built-in pass-through branch names of cnb.py. -/
def builtinPasses : List String := ["main", "master"]

/-- The pass-through set: built-ins plus the configured `pass_branches`
value split on runs of non-word characters. -/
def passes (cfg : GitCfg) : List String :=
  builtinPasses ++ (match cfg.pass_branches with
    | some s => splitNonWord s
    | none => [])

/-- The sentinel used when no strip-prefix is configured. -/
def stripSentinel : String := "DO NOT MATCH THIS!"

/-- The effective strip-prefix value of the configuration. -/
def effStrip (cfg : GitCfg) : String :=
  match cfg.stripPat with
  | some p => p
  | none => stripSentinel

/-- One line of `git branch -a` output normalised as in cnb.py:
`branch.replace("*", "").replace(strip_p, "").strip()` (both replaces act
on every occurrence). -/
def normalizeLine (p line : String) : String :=
  pyStrip (pyReplace p "" (pyReplace "*" "" line))

/-- The normalised Branch Candidate List from the raw stdout. -/
def normalizeBranches (cfg : GitCfg) (stdout : String) : List String :=
  (pySplitlines stdout).map (fun line => normalizeLine (effStrip cfg) line)

/-- The allow-list step of `get_branch_name`: when `accept_re_list` is
configured and loose mode is off, the comprehension
`[branch for branch in branches for a_s in accept_strings if re.search(a_s, branch)]`
is applied.  The regex engine is the parameter `reSearch`. -/
def applyAllowList (reSearch : String → String → Bool) (cfg : GitCfg) (loose : Bool)
    (branches : List String) : List String :=
  match cfg.accept_re_list with
  | some s =>
    if loose then branches
    else
      branches.flatMap (fun b =>
        (pySplitChar ',' s).filterMap (fun a => if reSearch a b then some b else none))
  | none => branches

/-- The substring filter: branches containing the fragment. -/
def matchBranches (bn : String) (branches : List String) : List String :=
  branches.filter (fun b => containsSub b.data bn.data)

/-- The selectable option alphabet of cnb.py. -/
def optStr : String := "0123456789abcdefghijklmnopqrstuvwxyz"

/-- Outcome of branch resolution: a returned branch, a raised CNBException
message, or a forever-blocking interactive prompt (exhausted replies). -/
inductive BranchResult where
  | ok (branch : String)
  | err (msg : String)
  | noInput
  deriving DecidableEq

/-- The decision on the Match Set at the end of `get_branch_name`:
0 matches raise, 1 match returns directly, more than the option alphabet
raise, otherwise the user picks via `input_char`. -/
def resolveMatches (bn : String) (ms : List String) (replies : List String) :
    BranchResult :=
  if ms.length = 0 then
    .err ("couldn't find any branches matching " ++ bn)
  else if ms.length = 1 then
    .ok (ms.headD "")
  else if optStr.length < ms.length then
    .err (toString ms.length ++ " branches matching " ++ bn ++
      " but our limit is " ++ toString optStr.length)
  else
    match input_char (optStr.data.take ms.length) replies with
    | some i => .ok (ms.getD i "")
    | none => .noInput

/-- The Match Set computed by `get_branch_name` for a non-pass-through
fragment: normalisation, then the allow-list restriction, then the
substring filter. -/
def matchSetOf (reSearch : String → String → Bool) (bn : String) (cfg : GitCfg)
    (loose : Bool) (stdout : String) : List String :=
  matchBranches bn (applyAllowList reSearch cfg loose (normalizeBranches cfg stdout))

/-- `get_branch_name` from cnb.py.  The `git branch -a` invocation is
modelled by its exit code, stdout and stderr; `replies` models the
interactive input stream; the returned Bool records whether the branch
listing was invoked at all. -/
def get_branch_name (reSearch : String → String → Bool) (bn : String) (cfg : GitCfg)
    (loose : Bool) (gitExit : Nat) (stdout stderr : String)
    (replies : List String) : BranchResult × Bool :=
  if bn ∈ passes cfg then
    (.ok bn, false)
  else if gitExit ≠ 0 then
    (.err ("couldn't clone the repo: error code " ++ toString gitExit ++
      "\n" ++ stderr), true)
  else
    (resolveMatches bn (matchSetOf reSearch bn cfg loose stdout) replies, true)

/-- `get_git_dir` from cnb.py.  `pathNorm` models pathlib's `str(Path(.))`
normalisation, `joinGit` models `str(Path(home_dir, "git"))`, `isDir`
models `Path.is_dir`, and `cfgDir` is the `git`/`dir` configuration value
(`none` when the lookup raised, which the source catches).  Python
truthiness of the empty string in `if not git_dir` is modelled
explicitly. -/
def get_git_dir (pathNorm joinGit : String → String) (isDir : String → Bool)
    (home_dir : String) (cfgDir : Option String) : Except String String :=
  let g0 : Option String :=
    match cfgDir with
    | none => none
    | some d =>
      let d2 := if containsSub d.data [ '~' ] then pyReplace "~" home_dir d else d
      let p := pathNorm d2
      if isDir p then some p else none
  let g1 : Option String :=
    if (g0.getD "").isEmpty then
      (let p := joinGit home_dir
       if isDir p then some p else g0)
    else g0
  let g2 : Option String :=
    match g1 with
    | some g => if !g.isEmpty && !isDir g then none else some g
    | none => none
  match g2 with
  | none => Except.error "can't find any git directory - giving up"
  | some g => Except.ok g

/-- ConfigParser contents for getconf.py, as an association list of
sections, each with an association list of items. -/
abbrev IniCfg := List (String × List (String × String))

/-- `parser.sections()`. -/
def iniSections (cfg : IniCfg) : List String := cfg.map (fun sc => sc.1)

/-- The item list of a section, when the section exists. -/
def lookupSect (cfg : IniCfg) (s : String) : Option (List (String × String)) :=
  (cfg.find? (fun sc => sc.1 == s)).map (fun sc => sc.2)

/-- The value of an item inside a section's item list. -/
def lookupItem (items : List (String × String)) (i : String) : Option String :=
  (items.find? (fun it => it.1 == i)).map (fun it => it.2)

/-- `parser.has_option(s, i)`. -/
def has_option (cfg : IniCfg) (s i : String) : Bool :=
  match lookupSect cfg s with
  | some items => (lookupItem items i).isSome
  | none => false

/-- `validate_section` from getconf.py. -/
def validate_section (cfg : IniCfg) (s : String) : Except String Unit :=
  if s ∈ iniSections cfg then .ok ()
  else .error ("there is no section " ++ s ++ " in the config file")

/-- `validate_item` from getconf.py: validate the section, then the item,
then return the raw value. -/
def validate_item (cfg : IniCfg) (s i : String) : Except String String :=
  match validate_section cfg s with
  | .error e => .error e
  | .ok _ =>
    if has_option cfg s i then
      .ok (((lookupSect cfg s).bind (fun items => lookupItem items i)).getD "")
    else
      .error ("there is no item " ++ i ++ " in section " ++ s ++
        " in the config file")

/-- `arg_cnf` from getconf.py: the printed line is the trimmed value. -/
def arg_cnf (cfg : IniCfg) (s i : String) : Except String String :=
  (validate_item cfg s i).map pyStrip

/-- getconf.py's main dispatch specialised to the `cnf` command with its
two arguments already extracted: the exit status and the line printed
(the value on stdout, or the failure message on stderr). -/
def getconf_cnf (cfg : IniCfg) (s i : String) : Nat × String :=
  match arg_cnf cfg s i with
  | .ok out => (0, out)
  | .error e => (1, e)

/-- The externally visible operations of `main` in cnb.py, in the order
they are invoked. -/
inductive Ev where
  | loadConfig
  | resolveGitDir
  | mkdirTarget
  | chdirTarget
  | cloneCmd
  | chdirRepo
  | listBranches
  | checkoutCmd
  deriving DecidableEq

/-- The outcomes of all external collaborators of one run of `main`. -/
structure World where
  reSearch : String → String → Bool
  homeDir : String
  pathNorm : String → String
  joinGit : String → String
  isDir : String → Bool
  config : Option GitCfg
  cfgDir : Option String
  targetExists : Bool
  mkdirOk : Bool
  chdirTargetOk : Bool
  cloneExit : Nat
  chdirRepoOk : Bool
  branchExit : Nat
  branchStdout : String
  branchStderr : String
  replies : List String
  branchNo : String
  loose : Bool
  checkoutExit : Nat

/-- `main` from cnb.py as the trace of external operations it performs
plus the exit status (`none` models blocking forever on exhausted
interactive input).  Every failure raises CNBException, is caught, and
leads to `fail` with exit status 1; full success prints the completion
message and exits 0. -/
def cnb_main (w : World) : List Ev × Option Nat :=
  match w.config with
  | none => ([Ev.loadConfig], some 1)
  | some cfg =>
    match get_git_dir w.pathNorm w.joinGit w.isDir w.homeDir w.cfgDir with
    | .error _ => ([Ev.loadConfig, Ev.resolveGitDir], some 1)
    | .ok _ =>
      if w.targetExists then
        ([Ev.loadConfig, Ev.resolveGitDir], some 1)
      else if !w.mkdirOk then
        ([Ev.loadConfig, Ev.resolveGitDir, Ev.mkdirTarget], some 1)
      else if !w.chdirTargetOk then
        ([Ev.loadConfig, Ev.resolveGitDir, Ev.mkdirTarget, Ev.chdirTarget], some 1)
      else if w.cloneExit ≠ 0 then
        ([Ev.loadConfig, Ev.resolveGitDir, Ev.mkdirTarget, Ev.chdirTarget,
          Ev.cloneCmd], some 1)
      else if !w.chdirRepoOk then
        ([Ev.loadConfig, Ev.resolveGitDir, Ev.mkdirTarget, Ev.chdirTarget,
          Ev.cloneCmd, Ev.chdirRepo], some 1)
      else
        let gbn := get_branch_name w.reSearch w.branchNo cfg w.loose w.branchExit
          w.branchStdout w.branchStderr w.replies
        let t0 := [Ev.loadConfig, Ev.resolveGitDir, Ev.mkdirTarget, Ev.chdirTarget,
          Ev.cloneCmd, Ev.chdirRepo] ++ (if gbn.2 then [Ev.listBranches] else [])
        match gbn.1 with
        | .err _ => (t0, some 1)
        | .noInput => (t0, none)
        | .ok _ => (t0 ++ [Ev.checkoutCmd], some (if w.checkoutExit ≠ 0 then 1 else 0))

/-- A fully successful run used as a concrete instance: every external
operation succeeds and the fragment is the built-in pass-through "main". -/
def w0 : World :=
  ⟨fun _ _ => false, "/h", fun s => s, fun h => h ++ "/git", fun _ => true,
    some ⟨none, none, none⟩, none, false, true, true, 0, true, 0, "", "",
    [], "main", false, 0⟩

/-! Spec-side definitions: formulations following the specification's words,
to be compared with the embedded source functions above. -/

/-- The regex search instantiated with literal substring containment: valid
for patterns without metacharacters, used for concrete counterexamples. -/
def litSearch (pat b : String) : Bool := containsSub b.data pat.data

/-- Allow-list filtering as the claim words it: retain each candidate once
when it matches at least one expression. -/
def allowListClaim (reSearch : String → String → Bool) (accept : List String)
    (branches : List String) : List String :=
  branches.filter (fun b => accept.any (fun a => reSearch a b))

/-- Line normalisation as the claim words it: marker characters removed,
then only the FIRST occurrence of the strip-prefix removed, then trimmed. -/
def normalizeLineClaim (p line : String) : String :=
  pyStrip ⟨removeFirstOcc p.data (pyReplace "*" "" line).data⟩

/-- Line normalisation as amended: marker characters removed (expressed as a
character filter), then EVERY left-to-right occurrence of the strip-prefix
removed (expressed as split-on-pattern followed by concatenation), then
trimmed. -/
def normalizeLineAllOcc (p line : String) : String :=
  pyStrip ⟨(splitSub p.data (line.data.filter (fun c => c != '*'))).flatten⟩

/-- Directory resolution as the claim words it: only a LEADING tilde of the
configured value is replaced by the home directory. -/
def resolve_git_dir_claim (pathNorm joinGit : String → String) (isDir : String → Bool)
    (home : String) (cfgDir : Option String) : Except String String :=
  let fromCfg : Option String :=
    match cfgDir with
    | none => none
    | some d =>
      let d2 : String :=
        match d.data with
        | '~' :: rest => ⟨home.data ++ rest⟩
        | _ => d
      let p := pathNorm d2
      if isDir p then some p else none
  match fromCfg with
  | some g => Except.ok g
  | none =>
    let p := joinGit home
    if isDir p then Except.ok p
    else Except.error "can't find any git directory - giving up"

/-- Directory resolution as amended: EVERY tilde of the configured value is
replaced by the home directory (expressed independently as split-on-tilde
interleaved with the home directory), then the claim's resolution order. -/
def resolve_git_dir_amended (pathNorm joinGit : String → String) (isDir : String → Bool)
    (home : String) (cfgDir : Option String) : Except String String :=
  let fromCfg : Option String :=
    match cfgDir with
    | none => none
    | some d =>
      let d2 : String := ⟨joinSep home.data (splitCharGo '~' d.data [])⟩
      let p := pathNorm d2
      if isDir p then some p else none
  match fromCfg with
  | some g => Except.ok g
  | none =>
    let p := joinGit home
    if isDir p then Except.ok p
    else Except.error "can't find any git directory - giving up"

/-! Helper lemmas about the embedded Python string primitives. -/

theorem strEq_of_data {s t : String} (h : s.data = t.data) : s = t := by
  cases s; cases t; exact congrArg String.mk h

theorem pyReplace_data (pat rep s : String) :
    (pyReplace pat rep s).data = pyReplaceFuel pat.data rep.data s.data.length s.data := rfl

theorem pyStrip_data (s : String) : (pyStrip s).data = stripChars s.data := rfl

theorem strFindIdx_lt (c : Char) :
    ∀ (l : List Char) (i : Nat), strFindIdx c l = some i → i < l.length := by
  intro l
  induction l with
  | nil => intro i h; simp [strFindIdx] at h
  | cons d rest ih =>
    intro i h
    simp only [strFindIdx] at h
    by_cases hd : (d == c) = true
    · rw [if_pos hd] at h
      injection h with h
      simp only [List.length_cons]
      omega
    · rw [if_neg hd, Option.map_eq_some'] at h
      obtain ⟨j, hj, hji⟩ := h
      have := ih j hj
      simp only [List.length_cons]
      omega

theorem input_char_lt (opts : List Char) :
    ∀ (replies : List String) (i : Nat), input_char opts replies = some i → i < opts.length := by
  intro replies
  induction replies with
  | nil => intro i h; simp [input_char] at h
  | cons r rest ih =>
    intro i h
    unfold input_char at h
    split at h
    · split at h
      · rename_i c hc j hj
        cases h
        exact strFindIdx_lt _ _ _ hj
      · exact ih i h
    · exact ih i h

theorem getD_mem_of_lt {α : Type} {l : List α} {i : Nat} (h : i < l.length) (d : α) :
    l.getD i d ∈ l := by
  rw [List.getD_eq_getElem l d h]
  exact List.getElem_mem h

theorem filterMap_if_const {α β : Type} (p : α → Bool) (b : β) :
    ∀ l : List α,
      l.filterMap (fun a => if p a then some b else none) =
        List.replicate (l.countP p) b := by
  intro l
  induction l with
  | nil => rfl
  | cons a t ih =>
    by_cases hp : p a
    · simp [List.filterMap_cons, hp, List.countP_cons, ih, List.replicate_succ,
        List.replicate_add]
    · simp [List.filterMap_cons, hp, List.countP_cons, ih]

theorem dropWhile_head_false {α : Type} (p : α → Bool) :
    ∀ (l : List α) (c : α) (t : List α), l.dropWhile p = c :: t → p c = false := by
  intro l
  induction l with
  | nil => intro c t h; simp [List.dropWhile] at h
  | cons a rest ih =>
    intro c t h
    rw [List.dropWhile_cons] at h
    by_cases ha : p a
    · rw [if_pos ha] at h; exact ih c t h
    · rw [if_neg ha] at h
      cases h
      exact Bool.of_not_eq_true ha

theorem dropWhile_dropWhile {α : Type} (p : α → Bool) (l : List α) :
    (l.dropWhile p).dropWhile p = l.dropWhile p := by
  rcases hd : l.dropWhile p with _ | ⟨c, t⟩
  · rfl
  · rw [List.dropWhile_cons, if_neg]
    rw [dropWhile_head_false p l c t hd]
    simp

theorem dropWhile_of_head_false {α : Type} (p : α → Bool) (l : List α) (c : α)
    (hh : l.head? = some c) (hc : p c = false) : l.dropWhile p = l := by
  cases l with
  | nil => rfl
  | cons a t =>
    cases hh
    rw [List.dropWhile_cons, if_neg]
    rw [hc]
    simp

theorem dropWhile_getLast? {α : Type} (p : α → Bool) :
    ∀ l : List α, l.dropWhile p ≠ [] → (l.dropWhile p).getLast? = l.getLast? := by
  intro l
  induction l with
  | nil => intro h; simp [List.dropWhile] at h
  | cons a rest ih =>
    intro h
    rw [List.dropWhile_cons]
    by_cases ha : p a
    · rw [List.dropWhile_cons, if_pos ha] at h
      rw [if_pos ha, ih h]
      rcases hr : rest with _ | ⟨b, t⟩
      · rw [hr] at h; simp [List.dropWhile] at h
      · exact (List.getLast?_cons_cons).symm
    · rw [if_neg ha]

theorem stripChars_revdrop (l : List Char) :
    (stripChars l).reverse.dropWhile isPySpace = (stripChars l).reverse := by
  unfold stripChars
  rw [List.reverse_reverse]
  exact dropWhile_dropWhile isPySpace _

theorem stripChars_drop (l : List Char) :
    (stripChars l).dropWhile isPySpace = stripChars l := by
  rcases hB : (l.dropWhile isPySpace).reverse.dropWhile isPySpace with _ | ⟨b0, Bt⟩
  · unfold stripChars
    rw [hB]
    rfl
  · have hBne : (l.dropWhile isPySpace).reverse.dropWhile isPySpace ≠ [] := by
      rw [hB]; simp
    have hAne : l.dropWhile isPySpace ≠ [] := by
      intro hA0
      rw [hA0] at hBne
      simp at hBne
    rcases hA : l.dropWhile isPySpace with _ | ⟨a0, At⟩
    · exact absurd hA hAne
    have ha0 : isPySpace a0 = false := dropWhile_head_false isPySpace l a0 At hA
    have hhead : (stripChars l).head? = some a0 := by
      unfold stripChars
      rw [List.head?_reverse, dropWhile_getLast? isPySpace _ hBne,
        List.getLast?_reverse, hA]
      rfl
    exact dropWhile_of_head_false isPySpace _ a0 hhead ha0

theorem stripChars_idem (l : List Char) : stripChars (stripChars l) = stripChars l := by
  show (((stripChars l).dropWhile isPySpace).reverse.dropWhile isPySpace).reverse
    = stripChars l
  rw [stripChars_drop, stripChars_revdrop, List.reverse_reverse]

theorem stripChars_sublist (l : List Char) : (stripChars l).Sublist l := by
  unfold stripChars
  have h1 : (l.dropWhile isPySpace).Sublist l := List.dropWhile_sublist _
  have h2 : ((l.dropWhile isPySpace).reverse.dropWhile isPySpace).Sublist
      (l.dropWhile isPySpace).reverse := List.dropWhile_sublist _
  have h3 := h2.reverse
  rw [List.reverse_reverse] at h3
  exact h3.trans h1

theorem pyReplaceFuel_nil_sublist (pat : List Char) :
    ∀ (f : Nat) (l : List Char), (pyReplaceFuel pat [] f l).Sublist l := by
  intro f
  induction f with
  | zero => intro l; cases l <;> simp [pyReplaceFuel]
  | succ f ih =>
    intro l
    cases l with
    | nil => simp [pyReplaceFuel]
    | cons c rest =>
      show (if !pat.isEmpty && pat.isPrefixOf (c :: rest) then
          [] ++ pyReplaceFuel pat [] f (rest.drop (pat.length - 1))
        else c :: pyReplaceFuel pat [] f rest).Sublist (c :: rest)
      split
      · simp only [List.nil_append]
        exact (ih _).trans ((List.drop_sublist _ _).trans (List.sublist_cons_self c rest))
      · exact List.Sublist.cons₂ c (ih rest)

theorem pyReplaceFuel_no_occ (pat rep : List Char) :
    ∀ (f : Nat) (l : List Char), containsSub l pat = false → pyReplaceFuel pat rep f l = l := by
  intro f
  induction f with
  | zero => intro l _; cases l <;> simp [pyReplaceFuel]
  | succ f ih =>
    intro l h
    cases l with
    | nil => simp [pyReplaceFuel]
    | cons c rest =>
      rw [containsSub, Bool.or_eq_false_iff] at h
      obtain ⟨h1, h2⟩ := h
      show (if !pat.isEmpty && pat.isPrefixOf (c :: rest) then
          rep ++ pyReplaceFuel pat rep f (rest.drop (pat.length - 1))
        else c :: pyReplaceFuel pat rep f rest) = c :: rest
      rw [h1]
      simp [ih rest h2]

theorem pyReplaceFuel_star :
    ∀ (f : Nat) (l : List Char), l.length ≤ f →
      pyReplaceFuel [ '*' ] [] f l = l.filter (fun c => c != '*') := by
  intro f
  induction f with
  | zero =>
    intro l h
    rw [Nat.le_zero, List.length_eq_zero] at h
    subst h
    rfl
  | succ f ih =>
    intro l h
    cases l with
    | nil => rfl
    | cons c rest =>
      show (if (Bool.not (List.isEmpty [ '*' ]) && [ '*' ].isPrefixOf (c :: rest)) then
          [] ++ pyReplaceFuel [ '*' ] [] f (rest.drop ([ '*' ].length - 1))
        else c :: pyReplaceFuel [ '*' ] [] f rest) = (c :: rest).filter (fun c => c != '*')
      have hlen : rest.length ≤ f := by
        simp only [List.length_cons] at h
        omega
      by_cases hc : c = '*'
      · subst hc
        have hpre : List.isPrefixOf [ '*' ] ('*' :: rest) = true := by
          simp [List.isPrefixOf]
        rw [hpre]
        simp [List.filter_cons, List.drop_zero, ih rest hlen]
      · have hpre : List.isPrefixOf [ '*' ] (c :: rest) = false := by
          simp [List.isPrefixOf]
          exact fun hcc => absurd hcc.symm hc
        rw [hpre]
        simp only [Bool.and_false, if_false]
        rw [ih rest hlen]
        simp [List.filter_cons, hc]

theorem splitSubFuel_ne_nil (pat : List Char) :
    ∀ (f : Nat) (l : List Char), splitSubFuel pat f l ≠ [] := by
  intro f
  induction f with
  | zero => intro l; cases l <;> simp [splitSubFuel]
  | succ f ih =>
    intro l
    cases l with
    | nil => simp [splitSubFuel]
    | cons c rest =>
      show (if !pat.isEmpty && pat.isPrefixOf (c :: rest) then
          [] :: splitSubFuel pat f (rest.drop (pat.length - 1))
        else match splitSubFuel pat f rest with
          | [] => [[c]]
          | g :: gs => (c :: g) :: gs) ≠ []
      split
      · simp
      · rcases hs : splitSubFuel pat f rest with _ | ⟨g, gs⟩ <;> simp

theorem splitSubFuel_flatten (pat : List Char) :
    ∀ (f : Nat) (l : List Char),
      (splitSubFuel pat f l).flatten = pyReplaceFuel pat [] f l := by
  intro f
  induction f with
  | zero => intro l; cases l <;> simp [splitSubFuel, pyReplaceFuel]
  | succ f ih =>
    intro l
    cases l with
    | nil => simp [splitSubFuel, pyReplaceFuel]
    | cons c rest =>
      show (if !pat.isEmpty && pat.isPrefixOf (c :: rest) then
          [] :: splitSubFuel pat f (rest.drop (pat.length - 1))
        else match splitSubFuel pat f rest with
          | [] => [[c]]
          | g :: gs => (c :: g) :: gs).flatten =
        (if !pat.isEmpty && pat.isPrefixOf (c :: rest) then
          [] ++ pyReplaceFuel pat [] f (rest.drop (pat.length - 1))
        else c :: pyReplaceFuel pat [] f rest)
      split
      · rw [List.flatten_cons]
        simp only [List.nil_append]
        exact ih _
      · rcases hs : splitSubFuel pat f rest with _ | ⟨g, gs⟩
        · exact absurd hs (splitSubFuel_ne_nil pat f rest)
        · rw [List.flatten_cons]
          have := ih rest
          rw [hs, List.flatten_cons] at this
          rw [← this]
          rfl

theorem containsSub_singleton (c : Char) :
    ∀ l : List Char, containsSub l [c] = true ↔ c ∈ l := by
  intro l
  induction l with
  | nil => simp [containsSub]
  | cons d t ih =>
    rw [containsSub]
    simp [List.isPrefixOf, ih]

theorem splitCharGo_ne_nil (sep : Char) :
    ∀ (l acc : List Char), splitCharGo sep l acc ≠ [] := by
  intro l
  induction l with
  | nil => intro acc; simp [splitCharGo]
  | cons c rest ih =>
    intro acc
    rw [splitCharGo]
    split <;> simp [ih]

theorem joinSep_splitCharGo (sep : Char) (rep : List Char) :
    ∀ (l acc : List Char) (f : Nat), l.length ≤ f →
      joinSep rep (splitCharGo sep l acc) = acc.reverse ++ pyReplaceFuel [sep] rep f l := by
  intro l
  induction l with
  | nil =>
    intro acc f _
    show joinSep rep [acc.reverse] = acc.reverse ++ pyReplaceFuel [sep] rep f []
    cases f <;> simp [joinSep, pyReplaceFuel]
  | cons c rest ih =>
    intro acc f hf
    cases f with
    | zero => simp at hf
    | succ f =>
      have hlen : rest.length ≤ f := by
        simp only [List.length_cons] at hf
        omega
      rw [splitCharGo]
      by_cases hc : (c == sep) = true
      · rw [if_pos hc]
        rcases hs : splitCharGo sep rest [] with _ | ⟨g, gs⟩
        · exact absurd hs (splitCharGo_ne_nil sep rest [])
        · have hj : joinSep rep (acc.reverse :: g :: gs) =
              acc.reverse ++ rep ++ joinSep rep (g :: gs) := rfl
          rw [hj, ← hs, ih [] f hlen]
          have hbeq : c = sep := by exact beq_iff_eq.mp hc
          subst hbeq
          show acc.reverse ++ rep ++ pyReplaceFuel [c] rep f rest =
            acc.reverse ++ (if (Bool.not (List.isEmpty [c]) && [c].isPrefixOf (c :: rest)) then
              rep ++ pyReplaceFuel [c] rep f (rest.drop ([c].length - 1))
            else c :: pyReplaceFuel [c] rep f rest)
          have hpre : List.isPrefixOf [c] (c :: rest) = true := by
            simp [List.isPrefixOf]
          rw [hpre]
          simp [List.append_assoc]
      · rw [if_neg hc]
        rw [ih (c :: acc) f hlen]
        have hne : c ≠ sep := by
          intro hcc
          exact hc (beq_iff_eq.mpr hcc)
        show (c :: acc).reverse ++ pyReplaceFuel [sep] rep f rest =
          acc.reverse ++ (if (Bool.not (List.isEmpty [sep]) && [sep].isPrefixOf (c :: rest)) then
            rep ++ pyReplaceFuel [sep] rep f (rest.drop ([sep].length - 1))
          else c :: pyReplaceFuel [sep] rep f rest)
        have hpre : List.isPrefixOf [sep] (c :: rest) = false := by
          simp [List.isPrefixOf]
          exact fun hcc => absurd hcc.symm hne
        rw [hpre]
        simp

theorem splitWGo_head_nonword (c : Char) (rest : List Char) (h : isWordChar c = false) :
    "" ∈ splitWGo (c :: rest) (some []) := by
  rw [splitWGo, h]
  simp

theorem splitWGo_last_nonword {c : Char} (hw : isWordChar c = false) :
    ∀ (l : List Char) (st : Option (List Char)),
      l.getLast? = some c → "" ∈ splitWGo l st := by
  intro l
  induction l with
  | nil => intro st h; simp at h
  | cons a t ih =>
    intro st h
    cases t with
    | nil =>
      have ha : a = c := by
        simpa using h
      subst ha
      cases st with
      | some acc => rw [splitWGo, hw]; simp [splitWGo]
      | none => rw [splitWGo, hw]; simp [splitWGo]
    | cons b t2 =>
      rw [List.getLast?_cons_cons] at h
      cases st with
      | some acc =>
        rw [splitWGo]
        by_cases hwa : isWordChar a
        · rw [if_pos hwa]
          exact ih _ h
        · rw [if_neg hwa]
          exact List.mem_cons_of_mem _ (ih _ h)
      | none =>
        rw [splitWGo]
        by_cases hwa : isWordChar a
        · rw [if_pos hwa]
          exact ih _ h
        · rw [if_neg hwa]
          exact ih _ h

theorem lookupSect_some_iff (cfg : IniCfg) (s : String) :
    (∃ items, lookupSect cfg s = some items) ↔ s ∈ iniSections cfg := by
  induction cfg with
  | nil => simp [lookupSect, iniSections]
  | cons sc t ih =>
    by_cases h : (sc.1 == s) = true
    · have hs : sc.1 = s := beq_iff_eq.mp h
      simp [lookupSect, iniSections, List.find?_cons, h, hs]
    · have hs : sc.1 ≠ s := fun hh => h (beq_iff_eq.mpr hh)
      simp only [lookupSect, iniSections, List.find?_cons, h, List.map_cons, List.mem_cons]
      constructor
      · intro hx
        right
        exact (ih.mp hx)
      · rintro (hx | hx)
        · exact absurd hx.symm hs
        · exact ih.mpr hx

/-! Claim theorems. -/

/-- C5: for every fragment exactly equal to a pass-through name (the built-in
pair main/master or a name from the configured pass_branches value split on
runs of non-word characters), get_branch_name returns the fragment
immediately and the external branch listing is never invoked. -/
theorem C5_pass_through (reSearch : String → String → Bool) (bn : String) (cfg : GitCfg)
    (loose : Bool) (gitExit : Nat) (stdout stderr : String) (replies : List String)
    (h : bn ∈ passes cfg) :
    get_branch_name reSearch bn cfg loose gitExit stdout stderr replies =
      (.ok bn, false) := by
  unfold get_branch_name
  rw [if_pos h]

theorem C5_pass_through_witness :
    ("main" ∈ passes ⟨none, none, none⟩) ∧
      get_branch_name (fun _ _ => false) "main" ⟨none, none, none⟩ false 1 "zzz" "" [] =
        (.ok "main", false) :=
  ⟨by decide,
    C5_pass_through (fun _ _ => false) "main" ⟨none, none, none⟩ false 1 "zzz" "" []
      (by decide)⟩

/-- C10: a configured pass_branches value beginning or ending with a
non-word character puts the empty string into the pass-through set, so the
empty fragment resolves to the empty string with no branch listing. -/
theorem C10_empty_fragment_pass (reSearch : String → String → Bool) (pb : String)
    (sp ar : Option String) (loose : Bool) (gitExit : Nat) (stdout stderr : String)
    (replies : List String)
    (h : (∃ c, pb.data.head? = some c ∧ isWordChar c = false) ∨
         (∃ c, pb.data.getLast? = some c ∧ isWordChar c = false)) :
    "" ∈ passes ⟨some pb, sp, ar⟩ ∧
      get_branch_name reSearch "" ⟨some pb, sp, ar⟩ loose gitExit stdout stderr replies =
        (.ok "", false) := by
  have hmem : "" ∈ splitNonWord pb := by
    rcases h with ⟨c, hc, hw⟩ | ⟨c, hc, hw⟩
    · rcases hd : pb.data with _ | ⟨a, t⟩
      · rw [hd] at hc
        simp at hc
      · rw [hd] at hc
        rw [List.head?_cons] at hc
        injection hc with hac
        unfold splitNonWord
        rw [hd]
        exact splitWGo_head_nonword a t (by rw [hac]; exact hw)
    · unfold splitNonWord
      exact splitWGo_last_nonword hw pb.data _ hc
  have hp : "" ∈ passes ⟨some pb, sp, ar⟩ := by
    unfold passes
    simp only [List.mem_append]
    right
    exact hmem
  refine ⟨hp, ?_⟩
  unfold get_branch_name
  rw [if_pos hp]

theorem C10_empty_fragment_pass_witness :
    ("" ∈ passes ⟨some ",foo", none, none⟩) ∧
      get_branch_name (fun _ _ => false) "" ⟨some ",foo", none, none⟩ false 0
          "x\ny\n" "" [] = (.ok "", false) :=
  C10_empty_fragment_pass (fun _ _ => false) ",foo" none none false 0 "x\ny\n" "" []
    (Or.inl ⟨',', by decide, by decide⟩)

/-- C4: the decision on the Match Set size: zero matches raise the fatal
message naming the fragment; exactly one match is returned directly with no
prompting; more than 36 matches (the 36-character option alphabet) raise
the fatal message naming the count and the limit; otherwise the user is
prompted and the branch at the chosen index is returned. -/
theorem C4_match_count_decision (bn : String) (ms : List String) (replies : List String) :
    (ms = [] → resolveMatches bn ms replies =
        .err ("couldn't find any branches matching " ++ bn)) ∧
    (∀ b, ms = [b] → resolveMatches bn ms replies = .ok b) ∧
    (36 < ms.length → resolveMatches bn ms replies =
        .err (toString ms.length ++ " branches matching " ++ bn ++
          " but our limit is " ++ toString (36 : Nat))) ∧
    (1 < ms.length → ms.length ≤ 36 → ∀ i,
        input_char (optStr.data.take ms.length) replies = some i →
        resolveMatches bn ms replies = .ok (ms.getD i "")) := by
  have h36 : optStr.length = 36 := rfl
  refine ⟨?_, ?_, ?_, ?_⟩
  · intro h
    subst h
    rfl
  · intro b h
    subst h
    rfl
  · intro h
    unfold resolveMatches
    rw [if_neg (by omega), if_neg (by omega), if_pos (by rw [h36]; exact h)]
    rw [h36]
  · intro h1 h2 i hi
    unfold resolveMatches
    rw [if_neg (by omega), if_neg (by omega), if_neg (by rw [h36]; omega)]
    rw [hi]

theorem C4_match_count_decision_witness :
    resolveMatches "x" [] ["0"] = .err ("couldn't find any branches matching " ++ "x") ∧
    resolveMatches "x" ["ax"] ["0"] = .ok "ax" ∧
    resolveMatches "x" (List.replicate 37 "x") [] =
      .err (toString (List.replicate 37 "x").length ++ " branches matching " ++ "x" ++
        " but our limit is " ++ toString (36 : Nat)) ∧
    resolveMatches "x" ["a1x", "a2x"] ["1"] = .ok (["a1x", "a2x"].getD 1 "") :=
  ⟨(C4_match_count_decision "x" [] ["0"]).1 rfl,
   (C4_match_count_decision "x" ["ax"] ["0"]).2.1 "ax" rfl,
   (C4_match_count_decision "x" (List.replicate 37 "x") []).2.2.1 (by decide),
   (C4_match_count_decision "x" ["a1x", "a2x"] ["1"]).2.2.2 (by decide) (by decide) 1
     (by decide)⟩

/-- C2 counterexample: the source removes EVERY occurrence of the
strip-prefix (Python str.replace), not only the first one as the claim
states: on prefix "ab" and line "abab" the code yields "" while the
claim's formulation yields "ab". -/
theorem C2_counterexample :
    normalizeLine "ab" "abab" = "" ∧ normalizeLineClaim "ab" "abab" = "ab" := by
  constructor <;> rfl

/-- C2 as amended: the normalised branch name equals the line with the
marker characters removed (a character filter), then EVERY left-to-right
non-overlapping occurrence of the strip-prefix removed (split on the
pattern and concatenate), then surrounding whitespace trimmed. -/
theorem C2_normalization_all_occurrences (p line : String) :
    normalizeLine p line = normalizeLineAllOcc p line := by
  unfold normalizeLine normalizeLineAllOcc
  apply strEq_of_data
  rw [pyStrip_data, pyStrip_data]
  congr 1
  rw [pyReplace_data]
  have hstar : (pyReplace "*" "" line).data = line.data.filter (fun c => c != '*') := by
    rw [pyReplace_data]
    exact pyReplaceFuel_star line.data.length line.data (Nat.le_refl _)
  rw [hstar]
  rw [← splitSubFuel_flatten]
  rfl

/-- C3 counterexample: normalisation is NOT idempotent: with strip-prefix
"ab", the line "aabb" normalises to "ab", which normalises again to "". -/
theorem C3_counterexample :
    normalizeLine "ab" (normalizeLine "ab" "aabb") ≠ normalizeLine "ab" "aabb" := by
  decide

/-- C3 as amended: normalisation is idempotent exactly on the runs it can
reach a fixed point on: whenever the once-normalised line contains no
further occurrence of the strip-prefix, a second normalisation is the
identity.  (Removing every occurrence in one left-to-right pass can create
a fresh occurrence by juxtaposition, which the counterexample exhibits.) -/
theorem C3_idempotent_without_residual (p L : String)
    (h : containsSub (normalizeLine p L).data p.data = false) :
    normalizeLine p (normalizeLine p L) = normalizeLine p L := by
  have hstar : ∀ s : String,
      (pyReplace "*" "" s).data = s.data.filter (fun c => c != '*') := by
    intro s
    rw [pyReplace_data]
    exact pyReplaceFuel_star s.data.length s.data (Nat.le_refl _)
  have hsub : ((normalizeLine p L).data).Sublist (L.data.filter (fun c => c != '*')) := by
    unfold normalizeLine
    rw [pyStrip_data]
    refine (stripChars_sublist _).trans ?_
    rw [pyReplace_data, hstar L]
    exact pyReplaceFuel_nil_sublist p.data _ _
  apply strEq_of_data
  show (pyStrip (pyReplace p "" (pyReplace "*" "" (normalizeLine p L)))).data = _
  rw [pyStrip_data]
  have h1 : (pyReplace "*" "" (normalizeLine p L)).data = (normalizeLine p L).data := by
    rw [hstar]
    apply List.filter_eq_self.mpr
    intro a ha
    exact (List.mem_filter.mp (hsub.subset ha)).2
  have h2 : (pyReplace p "" (pyReplace "*" "" (normalizeLine p L))).data
      = (normalizeLine p L).data := by
    rw [pyReplace_data, h1]
    exact pyReplaceFuel_no_occ p.data _ _ _ h
  rw [h2]
  have h3 : (normalizeLine p L).data
      = stripChars ((pyReplace p "" (pyReplace "*" "" L)).data) := by
    unfold normalizeLine
    rw [pyStrip_data]
  rw [h3, stripChars_idem]

theorem C3_idempotent_without_residual_witness :
    containsSub (normalizeLine "xy" " * foo ").data ("xy" : String).data = false ∧
      normalizeLine "xy" (normalizeLine "xy" " * foo ") = normalizeLine "xy" " * foo " :=
  ⟨by decide, C3_idempotent_without_residual "xy" " * foo " (by decide)⟩

/-- C1 counterexample: the allow-list comprehension of the source keeps a
branch once PER matching expression, so a branch matching two of the
configured expressions appears twice, while the claim's formulation keeps
each matching branch exactly once. -/
theorem C1_counterexample :
    applyAllowList litSearch ⟨none, none, some "a,b"⟩ false ["ab"] = ["ab", "ab"] ∧
      allowListClaim litSearch (pySplitChar ',' "a,b") ["ab"] = ["ab"] := by
  constructor <;> rfl

/-- C1 as amended: with an allow-list configured and loose mode off, the
filtered list keeps the candidates in their original order, each candidate
repeated once per configured expression it matches (so a branch matching k
expressions appears k times); the restriction is applied to the normalized
candidates before the substring filter. -/
theorem C1_allowlist_once_per_regex (reSearch : String → String → Bool)
    (pb sp : Option String) (s : String) (bs : List String)
    (bn : String) (loose : Bool) (stdout stderr : String) (replies : List String)
    (hbn : bn ∉ passes ⟨pb, sp, some s⟩) :
    (applyAllowList reSearch ⟨pb, sp, some s⟩ false bs =
        bs.flatMap (fun b =>
          List.replicate ((pySplitChar ',' s).countP (fun a => reSearch a b)) b)) ∧
      (get_branch_name reSearch bn ⟨pb, sp, some s⟩ loose 0 stdout stderr replies).1 =
        resolveMatches bn
          (matchBranches bn (applyAllowList reSearch ⟨pb, sp, some s⟩ loose
            (normalizeBranches ⟨pb, sp, some s⟩ stdout))) replies := by
  constructor
  · show bs.flatMap (fun b => (pySplitChar ',' s).filterMap
        (fun a => if reSearch a b then some b else none)) = _
    congr 1
    funext b
    exact filterMap_if_const (fun a => reSearch a b) b (pySplitChar ',' s)
  · unfold get_branch_name
    rw [if_neg hbn, if_neg (show ¬ (0 : Nat) ≠ 0 by omega)]
    rfl

theorem C1_allowlist_once_per_regex_witness :
    (applyAllowList litSearch ⟨none, none, some "a,b"⟩ false ["ab"] =
        ["ab"].flatMap (fun b =>
          List.replicate ((pySplitChar ',' "a,b").countP (fun a => litSearch a b)) b)) ∧
      (get_branch_name litSearch "zz" ⟨none, none, some "a,b"⟩ false 0
          "b1\nb2\n" "" []).1 =
        resolveMatches "zz"
          (matchBranches "zz" (applyAllowList litSearch ⟨none, none, some "a,b"⟩ false
            (normalizeBranches ⟨none, none, some "a,b"⟩ "b1\nb2\n"))) [] :=
  C1_allowlist_once_per_regex litSearch none none "a,b" ["ab"] "zz" false
    "b1\nb2\n" "" [] (by decide)

/-- C7: the cnf command prints the whitespace-trimmed value with exit
status 0 when the section and the item both exist, and fails with exit
status 1 and the corresponding message when the section or the item is
absent. -/
theorem C7_cnf_get_item (cfg : IniCfg) (s i : String) :
    (∀ items v, lookupSect cfg s = some items → lookupItem items i = some v →
        getconf_cnf cfg s i = (0, pyStrip v)) ∧
    (lookupSect cfg s = none →
        getconf_cnf cfg s i = (1, "there is no section " ++ s ++ " in the config file")) ∧
    (∀ items, lookupSect cfg s = some items → lookupItem items i = none →
        getconf_cnf cfg s i = (1, "there is no item " ++ i ++ " in section " ++ s ++
          " in the config file")) := by
  refine ⟨?_, ?_, ?_⟩
  · intro items v hs hv
    have hsect : s ∈ iniSections cfg := (lookupSect_some_iff cfg s).mp ⟨items, hs⟩
    have hopt : has_option cfg s i = true := by
      unfold has_option
      rw [hs]
      show (lookupItem items i).isSome = true
      rw [hv]
      rfl
    have hvi : validate_item cfg s i = .ok v := by
      unfold validate_item validate_section
      rw [if_pos hsect]
      show (if has_option cfg s i = true then
          Except.ok (((lookupSect cfg s).bind (fun items => lookupItem items i)).getD "")
        else Except.error ("there is no item " ++ i ++ " in section " ++ s ++
          " in the config file")) = Except.ok v
      rw [if_pos hopt, hs]
      show Except.ok ((lookupItem items i).getD "") = Except.ok v
      rw [hv]
      rfl
    unfold getconf_cnf arg_cnf
    rw [hvi]
    rfl
  · intro hs
    have hsect : s ∉ iniSections cfg := by
      intro hmem
      obtain ⟨items, hitems⟩ := (lookupSect_some_iff cfg s).mpr hmem
      rw [hs] at hitems
      cases hitems
    unfold getconf_cnf arg_cnf validate_item validate_section
    rw [if_neg hsect]
    rfl
  · intro items hs hv
    have hsect : s ∈ iniSections cfg := (lookupSect_some_iff cfg s).mp ⟨items, hs⟩
    have hopt : has_option cfg s i = false := by
      unfold has_option
      rw [hs]
      show (lookupItem items i).isSome = false
      rw [hv]
      rfl
    have hvi : validate_item cfg s i = .error ("there is no item " ++ i ++
        " in section " ++ s ++ " in the config file") := by
      unfold validate_item validate_section
      rw [if_pos hsect]
      show (if has_option cfg s i = true then
          Except.ok (((lookupSect cfg s).bind (fun items => lookupItem items i)).getD "")
        else Except.error ("there is no item " ++ i ++ " in section " ++ s ++
          " in the config file")) = _
      rw [if_neg (by rw [hopt]; exact Bool.false_ne_true)]
    unfold getconf_cnf arg_cnf
    rw [hvi]
    rfl

theorem C7_cnf_get_item_witness :
    getconf_cnf [("git", [("repo_url", " http://x ")])] "git" "repo_url" =
      (0, pyStrip " http://x ") ∧
    getconf_cnf [("git", [("repo_url", " http://x ")])] "git" "nope" =
      (1, "there is no item " ++ "nope" ++ " in section " ++ "git" ++
        " in the config file") ∧
    getconf_cnf [("git", [("repo_url", " http://x ")])] "other" "x" =
      (1, "there is no section " ++ "other" ++ " in the config file") :=
  ⟨(C7_cnf_get_item [("git", [("repo_url", " http://x ")])] "git" "repo_url").1
      [("repo_url", " http://x ")] " http://x " rfl rfl,
   (C7_cnf_get_item [("git", [("repo_url", " http://x ")])] "git" "nope").2.2
      [("repo_url", " http://x ")] rfl rfl,
   (C7_cnf_get_item [("git", [("repo_url", " http://x ")])] "other" "x").2.1 rfl⟩

/-- C9: whenever get_branch_name succeeds on a fragment that is not a
pass-through name, the returned branch belongs to the Match Set, and hence
contains the fragment as a substring — in the single-match case and for
every interactive choice alike. -/
theorem C9_result_contains_fragment (reSearch : String → String → Bool) (bn : String)
    (cfg : GitCfg) (loose : Bool) (gitExit : Nat) (stdout stderr : String)
    (replies : List String) (b : String) (called : Bool)
    (hpass : bn ∉ passes cfg)
    (hres : get_branch_name reSearch bn cfg loose gitExit stdout stderr replies =
      (.ok b, called)) :
    b ∈ matchSetOf reSearch bn cfg loose stdout ∧
      containsSub b.data bn.data = true := by
  have hcontains : ∀ x, x ∈ matchSetOf reSearch bn cfg loose stdout →
      containsSub x.data bn.data = true := by
    intro x hx
    unfold matchSetOf matchBranches at hx
    exact (List.mem_filter.mp hx).2
  unfold get_branch_name at hres
  rw [if_neg hpass] at hres
  by_cases hg : gitExit ≠ 0
  · rw [if_pos hg] at hres
    simp at hres
  · rw [if_neg hg] at hres
    have hr : resolveMatches bn (matchSetOf reSearch bn cfg loose stdout) replies
        = .ok b := by
      have := congrArg Prod.fst hres
      simpa using this
    unfold resolveMatches at hr
    by_cases h0 : (matchSetOf reSearch bn cfg loose stdout).length = 0
    · rw [if_pos h0] at hr
      simp at hr
    · rw [if_neg h0] at hr
      by_cases h1 : (matchSetOf reSearch bn cfg loose stdout).length = 1
      · rw [if_pos h1] at hr
        injection hr with hb
        have hmem : (matchSetOf reSearch bn cfg loose stdout).headD "" ∈
            matchSetOf reSearch bn cfg loose stdout := by
          rcases List.length_eq_one.mp h1 with ⟨a, ha⟩
          rw [ha]
          simp
        rw [← hb]
        exact ⟨hmem, hcontains _ hmem⟩
      · rw [if_neg h1] at hr
        by_cases h2 : optStr.length < (matchSetOf reSearch bn cfg loose stdout).length
        · rw [if_pos h2] at hr
          simp at hr
        · rw [if_neg h2] at hr
          rcases hi : input_char
              (optStr.data.take (matchSetOf reSearch bn cfg loose stdout).length)
              replies with _ | j
          · rw [hi] at hr
            simp at hr
          · rw [hi] at hr
            injection hr with hb
            have hj : j < (matchSetOf reSearch bn cfg loose stdout).length := by
              have hlt := input_char_lt _ _ _ hi
              rw [List.length_take] at hlt
              omega
            have hmem := getD_mem_of_lt hj ""
            rw [← hb]
            exact ⟨hmem, hcontains _ hmem⟩

theorem C9_result_contains_fragment_witness :
    ("feat" ∉ passes ⟨none, none, none⟩) ∧
      get_branch_name (fun _ _ => false) "feat" ⟨none, none, none⟩ false 0
          "* featX\n" "" [] = (.ok "featX", true) ∧
      ("featX" ∈ matchSetOf (fun _ _ => false) "feat" ⟨none, none, none⟩ false
          "* featX\n" ∧
        containsSub ("featX" : String).data ("feat" : String).data = true) :=
  ⟨by decide, by decide,
   C9_result_contains_fragment (fun _ _ => false) "feat" ⟨none, none, none⟩ false 0
     "* featX\n" "" [] "featX" true (by decide) (by decide)⟩

/-- C6 counterexample: the source replaces EVERY tilde of the configured
dir value by the home directory (Python str.replace), not only a leading
one: on value with an inner tilde the code resolves a directory that the
claim's leading-tilde formulation misses entirely. -/
theorem C6_counterexample :
    get_git_dir (fun s => s) (fun h => h ++ "/git") (fun s => s == "/h/x/hy") "/h"
        (some "~/x~y") = Except.ok "/h/x/hy" ∧
      resolve_git_dir_claim (fun s => s) (fun h => h ++ "/git")
        (fun s => s == "/h/x/hy") "/h" (some "~/x~y") =
        Except.error "can't find any git directory - giving up" := by
  constructor <;> rfl

/-- C6 as amended: the resolver tries (a) the configured dir value with
EVERY occurrence of the tilde textually replaced by the home directory
(expressed independently as splitting on tildes and interleaving the home
directory), normalized and used only if it is a directory, then (b) the
home git subdirectory if it is a directory, and otherwise (c) fails; a
missing or unreadable configured value falls through to (b).  Stated for
path normalisers that never yield the empty string, as pathlib's does
not. -/
theorem C6_tilde_all_occurrences (pathNorm joinGit : String → String)
    (isDir : String → Bool) (home : String) (cfgDir : Option String)
    (hpn : ∀ s, (pathNorm s).isEmpty = false) :
    get_git_dir pathNorm joinGit isDir home cfgDir =
      resolve_git_dir_amended pathNorm joinGit isDir home cfgDir := by
  have hrepl : ∀ d : String, pyReplace "~" home d =
      (⟨joinSep home.data (splitCharGo '~' d.data [])⟩ : String) := by
    intro d
    apply strEq_of_data
    show pyReplaceFuel "~".data home.data d.data.length d.data
      = joinSep home.data (splitCharGo '~' d.data [])
    rw [joinSep_splitCharGo '~' home.data d.data [] d.data.length (Nat.le_refl _)]
    rfl
  have hd2 : ∀ d : String,
      (if containsSub d.data [ '~' ] then pyReplace "~" home d else d) =
        (⟨joinSep home.data (splitCharGo '~' d.data [])⟩ : String) := by
    intro d
    by_cases hc : containsSub d.data [ '~' ] = true
    · rw [if_pos hc]
      exact hrepl d
    · rw [if_neg hc]
      have hid : pyReplace "~" home d = d := by
        apply strEq_of_data
        rw [pyReplace_data]
        exact pyReplaceFuel_no_occ _ _ _ _ (by simpa using hc)
      rw [← hrepl d]
      exact hid.symm
  have hemp : ("" : String).isEmpty = true := rfl
  unfold get_git_dir resolve_git_dir_amended
  cases cfgDir with
  | none =>
    by_cases hf : isDir (joinGit home) = true <;> simp [hf, hemp]
  | some d =>
    by_cases h1 :
        isDir (pathNorm (⟨joinSep home.data (splitCharGo '~' d.data [])⟩ : String)) = true
    · simp [hd2, h1, hpn, hemp]
    · by_cases hf : isDir (joinGit home) = true <;> simp [hd2, h1, hf, hpn, hemp]

theorem C6_tilde_all_occurrences_witness :
    (∀ s : String, ((fun (_ : String) => ("/g" : String)) s).isEmpty = false) ∧
      get_git_dir (fun _ => "/g") (fun h => h ++ "/git") (fun _ => true) "/h" none =
        resolve_git_dir_amended (fun _ => "/g") (fun h => h ++ "/git")
          (fun _ => true) "/h" none :=
  ⟨fun _ => rfl,
    C6_tilde_all_occurrences (fun _ => "/g") (fun h => h ++ "/git") (fun _ => true)
      "/h" none (fun _ => rfl)⟩

/-- Characterisation of a checkout event in the trace of main: it occurs
only on the fully successful path (config loaded, git directory resolved,
target absent, mkdir and both directory changes succeeded, clone exited 0,
branch resolution returned a branch), and it sits strictly after the clone
invocation. -/
theorem cnb_main_checkout_inv (w : World)
    (h : Ev.checkoutCmd ∈ (cnb_main w).1) :
    ∃ cfg b, w.config = some cfg ∧
      (∃ gd, get_git_dir w.pathNorm w.joinGit w.isDir w.homeDir w.cfgDir =
        Except.ok gd) ∧
      w.targetExists = false ∧ w.mkdirOk = true ∧ w.chdirTargetOk = true ∧
      w.cloneExit = 0 ∧ w.chdirRepoOk = true ∧
      (get_branch_name w.reSearch w.branchNo cfg w.loose w.branchExit
          w.branchStdout w.branchStderr w.replies).1 = BranchResult.ok b ∧
      ∃ pre suf, (cnb_main w).1 = pre ++ Ev.cloneCmd :: suf ∧
        Ev.checkoutCmd ∉ pre ∧ Ev.checkoutCmd ∈ suf := by
  obtain ⟨rS, hD, pN, jG, iD, config, cfgD, tE, mO, cTO, cE, cRO, bE, bSO, bSE,
    rep, bN, lo, coE⟩ := w
  simp only [cnb_main] at h ⊢
  cases config with
  | none => simp at h
  | some cfg =>
    cases hg : get_git_dir pN jG iD hD cfgD with
    | error e => simp [hg] at h
    | ok gd =>
      cases tE with
      | true => simp [hg] at h
      | false =>
      cases mO with
      | false => simp [hg] at h
      | true =>
      cases cTO with
      | false => simp [hg] at h
      | true =>
      by_cases h4 : cE = 0
      case neg => simp [hg, h4] at h
      case pos =>
      subst h4
      cases cRO with
      | false => simp [hg] at h
      | true =>
      cases h8 : (get_branch_name rS bN cfg lo bE bSO bSE rep).1 with
      | err m =>
        cases h7 : (get_branch_name rS bN cfg lo bE bSO bSE rep).2 <;>
          simp [hg, h7, h8] at h
      | noInput =>
        cases h7 : (get_branch_name rS bN cfg lo bE bSO bSE rep).2 <;>
          simp [hg, h7, h8] at h
      | ok b =>
        refine ⟨cfg, b, rfl, ⟨gd, rfl⟩, rfl, rfl, rfl, rfl, rfl, h8, ?_⟩
        cases h7 : (get_branch_name rS bN cfg lo bE bSO bSE rep).2 with
        | true =>
          refine ⟨[Ev.loadConfig, Ev.resolveGitDir, Ev.mkdirTarget, Ev.chdirTarget],
            [Ev.chdirRepo, Ev.listBranches, Ev.checkoutCmd], ?_, by decide, by decide⟩
          simp [hg, h7, h8]
        | false =>
          refine ⟨[Ev.loadConfig, Ev.resolveGitDir, Ev.mkdirTarget, Ev.chdirTarget],
            [Ev.chdirRepo, Ev.checkoutCmd], ?_, by decide, by decide⟩
          simp [hg, h7, h8]

/-- C8: in every run of the orchestration, a checkout invocation in the
trace implies the clone succeeded and the directory change into the cloned
repository succeeded, and the checkout sits strictly after the clone
invocation; and conversely, when the clone fails or any earlier state
fails — the config load, the git-directory resolution, the
target-directory collision check, the mkdir, the chdir into the target,
the chdir into the repository, or branch resolution raising (in
particular the zero-branch-match case) — checkout is never invoked. -/
theorem C8_checkout_only_after_clone (w : World) :
    (Ev.checkoutCmd ∈ (cnb_main w).1 →
        w.cloneExit = 0 ∧ w.chdirRepoOk = true ∧
        ∃ pre suf, (cnb_main w).1 = pre ++ Ev.cloneCmd :: suf ∧
          Ev.checkoutCmd ∉ pre ∧ Ev.checkoutCmd ∈ suf) ∧
    (w.cloneExit ≠ 0 → Ev.checkoutCmd ∉ (cnb_main w).1) ∧
    (w.config = none → Ev.checkoutCmd ∉ (cnb_main w).1) ∧
    (∀ e, get_git_dir w.pathNorm w.joinGit w.isDir w.homeDir w.cfgDir =
        Except.error e → Ev.checkoutCmd ∉ (cnb_main w).1) ∧
    (w.targetExists = true → Ev.checkoutCmd ∉ (cnb_main w).1) ∧
    (w.mkdirOk = false → Ev.checkoutCmd ∉ (cnb_main w).1) ∧
    (w.chdirTargetOk = false → Ev.checkoutCmd ∉ (cnb_main w).1) ∧
    (w.chdirRepoOk = false → Ev.checkoutCmd ∉ (cnb_main w).1) ∧
    (∀ cfg m, w.config = some cfg →
        (get_branch_name w.reSearch w.branchNo cfg w.loose w.branchExit
            w.branchStdout w.branchStderr w.replies).1 = BranchResult.err m →
        Ev.checkoutCmd ∉ (cnb_main w).1) ∧
    (∀ cfg, w.config = some cfg → w.branchNo ∉ passes cfg → w.branchExit = 0 →
        matchSetOf w.reSearch w.branchNo cfg w.loose w.branchStdout = [] →
        Ev.checkoutCmd ∉ (cnb_main w).1) := by
  refine ⟨?_, ?_, ?_, ?_, ?_, ?_, ?_, ?_, ?_, ?_⟩
  · intro h
    obtain ⟨cfg, b, _, _, _, _, _, hcE, hcRO, _, hps⟩ := cnb_main_checkout_inv w h
    exact ⟨hcE, hcRO, hps⟩
  · intro hyp h
    obtain ⟨cfg, b, _, _, _, _, _, hcE, _, _, _⟩ := cnb_main_checkout_inv w h
    exact hyp hcE
  · intro hyp h
    obtain ⟨cfg, b, hcfg, _⟩ := cnb_main_checkout_inv w h
    rw [hyp] at hcfg
    exact Option.noConfusion hcfg
  · intro e hyp h
    obtain ⟨cfg, b, _, ⟨gd, hgd⟩, _⟩ := cnb_main_checkout_inv w h
    rw [hyp] at hgd
    exact Except.noConfusion hgd
  · intro hyp h
    obtain ⟨cfg, b, _, _, htE, _⟩ := cnb_main_checkout_inv w h
    rw [hyp] at htE
    exact Bool.noConfusion htE
  · intro hyp h
    obtain ⟨cfg, b, _, _, _, hmO, _⟩ := cnb_main_checkout_inv w h
    rw [hyp] at hmO
    exact Bool.noConfusion hmO
  · intro hyp h
    obtain ⟨cfg, b, _, _, _, _, hcTO, _⟩ := cnb_main_checkout_inv w h
    rw [hyp] at hcTO
    exact Bool.noConfusion hcTO
  · intro hyp h
    obtain ⟨cfg, b, _, _, _, _, _, _, hcRO, _, _⟩ := cnb_main_checkout_inv w h
    rw [hyp] at hcRO
    exact Bool.noConfusion hcRO
  · intro cfg m hc herr h
    obtain ⟨cfg2, b, hcfg, _, _, _, _, _, _, hb, _⟩ := cnb_main_checkout_inv w h
    rw [hc] at hcfg
    injection hcfg with hcc
    rw [← hcc] at hb
    rw [herr] at hb
    exact BranchResult.noConfusion hb
  · intro cfg hc hpass hex hms h
    obtain ⟨cfg2, b, hcfg, _, _, _, _, _, _, hb, _⟩ := cnb_main_checkout_inv w h
    rw [hc] at hcfg
    injection hcfg with hcc
    rw [← hcc] at hb
    rw [hex] at hb
    unfold get_branch_name at hb
    rw [if_neg hpass, if_neg (show ¬ (0 : Nat) ≠ 0 by omega), hms] at hb
    simp [resolveMatches] at hb

theorem C8_checkout_only_after_clone_witness :
    (Ev.checkoutCmd ∈ (cnb_main w0).1 ∧
      (w0.cloneExit = 0 ∧ w0.chdirRepoOk = true ∧
        ∃ pre suf, (cnb_main w0).1 = pre ++ Ev.cloneCmd :: suf ∧
          Ev.checkoutCmd ∉ pre ∧ Ev.checkoutCmd ∈ suf)) ∧
    ({ w0 with cloneExit := 1 }.cloneExit ≠ 0 ∧
      Ev.checkoutCmd ∉ (cnb_main { w0 with cloneExit := 1 }).1) ∧
    (matchSetOf ({ w0 with branchNo := "zz" }).reSearch
        ({ w0 with branchNo := "zz" }).branchNo ⟨none, none, none⟩
        ({ w0 with branchNo := "zz" }).loose
        ({ w0 with branchNo := "zz" }).branchStdout = [] ∧
      Ev.checkoutCmd ∉ (cnb_main { w0 with branchNo := "zz" }).1) :=
  ⟨⟨by decide, (C8_checkout_only_after_clone w0).1 (by decide)⟩,
   ⟨by decide,
    (C8_checkout_only_after_clone { w0 with cloneExit := 1 }).2.1 (by decide)⟩,
   ⟨by decide,
    (C8_checkout_only_after_clone { w0 with branchNo := "zz" }).2.2.2.2.2.2.2.2.2
      ⟨none, none, none⟩ rfl (by decide) rfl (by decide)⟩⟩

end CnbTools
